import Mathlib

/-!
Verification of the migration orchestration engine of the zcs-to-zcs
migration tool: the session ledger (`SessionManager`), the per-phase
transfer operations (`BackupManager`), the worker passes
(`MigrationWorker`), the account partitioning (`ZimbraMigrator`), and
the backup-date computation (`Account.get_last_full_date`).

Text is modelled as `List Char` so that the Python string operations
used by the code (`str.split(';')`, `str.strip()`, `str.startswith`)
can be given as executable definitions with provable equations.
-/

namespace ZcsMigration

/-- Python strings, modelled as lists of characters. -/
abbrev Str := List Char

/-- Python `str.isspace` characters relevant to `str.strip()`. -/
def isPySpace (c : Char) : Bool :=
  c == ' ' || c == '\t' || c == '\n' || c == '\r' || c == '\x0b' || c == '\x0c'

/-- Right part of Python `str.strip()`: remove trailing whitespace. -/
def rstripChars (l : Str) : Str :=
  (l.reverse.dropWhile isPySpace).reverse

/-- Python `str.strip()`: remove leading and trailing whitespace. -/
def stripChars (l : Str) : Str :=
  rstripChars (l.dropWhile isPySpace)

/-- Python `line.split(';')`: split on every semicolon, keeping empty fields. -/
def splitSemi : Str → List Str
  | [] => [[]]
  | c :: cs =>
    if c = ';' then [] :: splitSemi cs
    else
      match splitSemi cs with
      | p :: ps => (c :: p) :: ps
      | [] => [[c]]

/-- The line `record_session` appends to the session file:
`f"{account_mail};{information}\n"`, stored here without the trailing
newline (the newline is consumed by line iteration plus `strip()` on read). -/
def sessionLine (mail info : Str) : Str := mail ++ ';' :: info

/-- `SessionManager.record_session`: append one `mail;information` line. -/
def record_session (ledger : List Str) (mail info : Str) : List Str :=
  ledger ++ [sessionLine mail info]

/-- One iteration of the scan in `SessionManager.check_session`:
`parts = line.strip().split(';')`;
`len(parts) >= 2 and parts[0] == account_mail and parts[1].startswith(session_type)`. -/
def lineMatches (mail stype line : Str) : Bool :=
  match splitSemi (stripChars line) with
  | p0 :: p1 :: _ => p0 == mail && stype.isPrefixOf p1
  | _ => false

/-- `SessionManager.check_session`: true iff some line of the session file
matches the account and the session-type prefix. -/
def check_session (ledger : List Str) (mail stype : Str) : Bool :=
  ledger.any (lineMatches mail stype)

/-! ### Basic lemmas about the string primitives -/

lemma dropWhile_append_cons {p : Char → Bool} (a : Str) (c : Char) (b : Str)
    (hc : p c = false) :
    List.dropWhile p (a ++ c :: b) = List.dropWhile p a ++ c :: b := by
  induction a with
  | nil => simp [List.dropWhile, hc]
  | cons x xs ih =>
    by_cases hx : p x
    · simp [List.dropWhile, hx, ih]
    · simp [List.dropWhile, hx]

lemma dropWhile_eq_self_of_all {p : Char → Bool} (l : Str)
    (h : ∀ c ∈ l, p c = false) : List.dropWhile p l = l := by
  induction l with
  | nil => rfl
  | cons x xs ih =>
    have hx := h x (by simp)
    have ih' := ih fun c hc => h c (by simp [hc])
    simp [List.dropWhile, hx, ih']

lemma rstripChars_append_cons (a : Str) (c : Char) (b : Str)
    (hc : isPySpace c = false) :
    rstripChars (a ++ c :: b) = a ++ c :: rstripChars b := by
  unfold rstripChars
  have h1 : (a ++ c :: b).reverse = b.reverse ++ c :: a.reverse := by simp
  rw [h1, dropWhile_append_cons _ c _ hc]
  simp

lemma stripChars_sessionLine (mail info : Str)
    (hs : ∀ c ∈ mail, isPySpace c = false) :
    stripChars (sessionLine mail info) = mail ++ ';' :: rstripChars info := by
  unfold stripChars sessionLine
  rw [dropWhile_append_cons _ ';' _ (by decide)]
  rw [dropWhile_eq_self_of_all _ hs]
  rw [rstripChars_append_cons _ ';' _ (by decide)]

lemma splitSemi_append (mail info : Str) (hsemi : ';' ∉ mail) :
    splitSemi (mail ++ ';' :: info) = mail :: splitSemi info := by
  induction mail with
  | nil => simp [splitSemi]
  | cons x xs ih =>
    have hx : ¬ x = ';' := fun h => hsemi (by simp [h])
    have hxs : ';' ∉ xs := fun h => hsemi (by simp [h])
    show splitSemi (x :: (xs ++ ';' :: info)) = (x :: xs) :: splitSemi info
    simp only [splitSemi, if_neg hx, ih hxs]

/-- Parsing a well-formed session line: first field is the account address,
second field starts at the phase tag. -/
lemma splitSemi_stripChars_sessionLine (mail info : Str)
    (hsemi : ';' ∉ mail) (hs : ∀ c ∈ mail, isPySpace c = false) :
    splitSemi (stripChars (sessionLine mail info)) =
      mail :: splitSemi (rstripChars info) := by
  rw [stripChars_sessionLine mail info hs, splitSemi_append _ _ hsemi]

lemma splitSemi_ne_nil (l : Str) : splitSemi l ≠ [] := by
  cases l with
  | nil => simp [splitSemi]
  | cons c cs =>
    by_cases h : c = ';'
    · simp [splitSemi, h]
    · rcases h2 : splitSemi cs with _ | ⟨p, ps⟩ <;> simp [splitSemi, h, h2]

lemma check_session_append (l ex : List Str) (mail stype : Str) :
    check_session (l ++ ex) mail stype =
      (check_session l mail stype || check_session ex mail stype) := by
  simp [check_session, List.any_append]

lemma check_session_mono {l : List Str} {mail t : Str} (ex : List Str)
    (h : check_session l mail t = true) :
    check_session (l ++ ex) mail t = true := by
  simp [check_session_append, h]

/-- A well-formed ledger line written for a different account address never
matches: its first `;`-field is exactly the writer's address. -/
lemma lineMatches_sessionLine_ne (mail mail2 info stype : Str)
    (hne : mail2 ≠ mail) (hsemi : ';' ∉ mail2)
    (hs : ∀ c ∈ mail2, isPySpace c = false) :
    lineMatches mail stype (sessionLine mail2 info) = false := by
  unfold lineMatches
  rw [splitSemi_stripChars_sessionLine mail2 info hsemi hs]
  rcases h2 : splitSemi (rstripChars info) with _ | ⟨p1, rest⟩
  · exact absurd h2 (splitSemi_ne_nil _)
  · simp [hne]

/-- A line with fewer than two `;`-fields never matches. -/
lemma lineMatches_short (mail stype badline : Str)
    (h : (splitSemi (stripChars badline)).length < 2) :
    lineMatches mail stype badline = false := by
  unfold lineMatches
  rcases h2 : splitSemi (stripChars badline) with _ | ⟨p0, _ | ⟨p1, rest⟩⟩
  · rfl
  · rfl
  · exfalso
    rw [h2] at h
    simp only [List.length_cons] at h
    omega

/-- The phase tags used by the full-migration phase. -/
def feTag : Str := "FULL-EXPORT".data

def fiTag : Str := "FULL-IMPORT".data

def ieTag : Str := "INCR-EXPORT".data

def iiTag : Str := "INCR-IMPORT".data

/-- C2. Ledger prefix-match semantics: after recording information
`"FULL-EXPORT;03/01/2024"` for an address, `check_session` answers true for
the `"FULL-EXPORT"` prefix and false for `"FULL-IMPORT"`; in general,
`check_session` is true iff some ledger line splits into at least two
`;`-fields whose first field is the account address and whose second field
(the phase tag) starts with the queried prefix. -/
theorem check_session_prefix_match (mail : Str)
    (hsemi : ';' ∉ mail) (hs : ∀ c ∈ mail, isPySpace c = false) :
    check_session (record_session [] mail ("FULL-EXPORT;03/01/2024".data))
        mail feTag = true ∧
    check_session (record_session [] mail ("FULL-EXPORT;03/01/2024".data))
        mail fiTag = false ∧
    (∀ ledger stype, check_session ledger mail stype = true ↔
      ∃ line ∈ ledger, ∃ p0 p1 rest,
        splitSemi (stripChars line) = p0 :: p1 :: rest ∧ p0 = mail ∧
        stype.isPrefixOf p1 = true) := by
  have hparse :=
    splitSemi_stripChars_sessionLine mail ("FULL-EXPORT;03/01/2024".data) hsemi hs
  have hr : rstripChars ("FULL-EXPORT;03/01/2024".data) =
      "FULL-EXPORT;03/01/2024".data := by decide
  have hsplit : splitSemi ("FULL-EXPORT;03/01/2024".data) =
      ["FULL-EXPORT".data, "03/01/2024".data] := by decide
  rw [hr, hsplit] at hparse
  refine ⟨?_, ?_, ?_⟩
  · simp only [check_session, record_session, List.nil_append, List.any_cons,
      List.any_nil, Bool.or_false]
    unfold lineMatches
    rw [hparse]
    simp [feTag]
  · simp only [check_session, record_session, List.nil_append, List.any_cons,
      List.any_nil, Bool.or_false]
    unfold lineMatches
    rw [hparse]
    simp
    decide
  · intro ledger stype
    unfold check_session
    rw [List.any_eq_true]
    constructor
    · rintro ⟨line, hline, hm⟩
      refine ⟨line, hline, ?_⟩
      unfold lineMatches at hm
      rcases hsp : splitSemi (stripChars line) with _ | ⟨p0, _ | ⟨p1, rest⟩⟩ <;>
        rw [hsp] at hm
      · simp at hm
      · simp at hm
      · simp only [Bool.and_eq_true, beq_iff_eq] at hm
        exact ⟨p0, p1, rest, rfl, hm.1, hm.2⟩
    · rintro ⟨line, hline, p0, p1, rest, hsp, hp0, hpre⟩
      refine ⟨line, hline, ?_⟩
      unfold lineMatches
      rw [hsp]
      simp [hp0, hpre]

theorem check_session_prefix_match_witness :
    (';' ∉ ("user@example.com".data : Str)) ∧
    check_session (record_session [] ("user@example.com".data)
        ("FULL-EXPORT;03/01/2024".data)) ("user@example.com".data) feTag = true ∧
    check_session (record_session [] ("user@example.com".data)
        ("FULL-EXPORT;03/01/2024".data)) ("user@example.com".data) fiTag = false :=
  ⟨by decide,
   (check_session_prefix_match ("user@example.com".data) (by decide) (by decide)).1,
   (check_session_prefix_match ("user@example.com".data) (by decide) (by decide)).2.1⟩

/-- C10. Exact account match in the ledger lookup: an entry recorded for a
different address (including a proper prefix or extension of the queried
address) never changes the answer for the queried address, and a malformed
line with fewer than two `;`-fields is ignored rather than raising. -/
theorem check_session_exact_account (ledger : List Str) (mail mail2 info stype : Str)
    (hne : mail2 ≠ mail) (hsemi : ';' ∉ mail2)
    (hs : ∀ c ∈ mail2, isPySpace c = false) :
    check_session (record_session ledger mail2 info) mail stype =
      check_session ledger mail stype ∧
    ∀ badline : Str, (splitSemi (stripChars badline)).length < 2 →
      check_session (ledger ++ [badline]) mail stype =
        check_session ledger mail stype := by
  constructor
  · unfold record_session
    rw [check_session_append]
    have hm : check_session [sessionLine mail2 info] mail stype = false := by
      simp [check_session, lineMatches_sessionLine_ne mail mail2 info stype hne hsemi hs]
    rw [hm, Bool.or_false]
  · intro badline hbad
    rw [check_session_append]
    have hm : check_session [badline] mail stype = false := by
      simp [check_session, lineMatches_short mail stype badline hbad]
    rw [hm, Bool.or_false]

theorem check_session_exact_account_witness :
    (("alice@x.y".data : Str) ≠ ("alice@x".data : Str)) ∧
    check_session (record_session [] ("alice@x.y".data) ("FULL-EXPORT;03/01/2024".data))
        ("alice@x".data) feTag =
      check_session [] ("alice@x".data) feTag :=
  ⟨by decide,
   (check_session_exact_account [] ("alice@x".data) ("alice@x.y".data)
      ("FULL-EXPORT;03/01/2024".data) feTag (by decide) (by decide) (by decide)).1⟩

/-! ### Dates: `Account.get_last_full_date`

The code reads the backup archive's `st_mtime`, truncates it to a calendar
date (`strftime('%Y-%m-%d')` then `strptime`), subtracts `timedelta(days=1)`
and formats the result as `%m/%d/%Y`.  Subtracting one day from a midnight
`datetime` is, by the semantics of the Python `datetime` library, the
previous day of the proleptic Gregorian calendar; `predDate` below embeds
that operation, and `toOrdinal` (the day count underlying Python's
`date.toordinal`) is used to prove that `predDate` really moves exactly one
day back. -/

structure Date where
  year : Nat
  month : Nat
  day : Nat
deriving DecidableEq

/-- Proleptic Gregorian leap-year rule, as in Python `datetime`. -/
def isLeapYear (y : Nat) : Bool :=
  (y % 4 == 0 && y % 100 != 0) || y % 400 == 0

def daysInMonth (y m : Nat) : Nat :=
  if m = 2 then (if isLeapYear y then 29 else 28)
  else if m = 4 ∨ m = 6 ∨ m = 9 ∨ m = 11 then 30
  else 31

/-- A calendar date Python `datetime.date` can hold (year at least 1). -/
def Date.valid (d : Date) : Prop :=
  1 ≤ d.year ∧ 1 ≤ d.month ∧ d.month ≤ 12 ∧ 1 ≤ d.day ∧
    d.day ≤ daysInMonth d.year d.month

instance (d : Date) : Decidable d.valid := by
  unfold Date.valid
  infer_instance

/-- `datetime.strptime(last_date, '%Y-%m-%d') - timedelta(days=1)`:
the previous calendar day. -/
def predDate (d : Date) : Date :=
  if 1 < d.day then ⟨d.year, d.month, d.day - 1⟩
  else if 1 < d.month then ⟨d.year, d.month - 1, daysInMonth d.year (d.month - 1)⟩
  else ⟨d.year - 1, 12, 31⟩

def pad2 (n : Nat) : Str :=
  if n < 10 then '0' :: Nat.toDigits 10 n else Nat.toDigits 10 n

def pad4 (n : Nat) : Str :=
  if n < 10 then '0' :: '0' :: '0' :: Nat.toDigits 10 n
  else if n < 100 then '0' :: '0' :: Nat.toDigits 10 n
  else if n < 1000 then '0' :: Nat.toDigits 10 n
  else Nat.toDigits 10 n

/-- `strftime('%m/%d/%Y')`. -/
def formatMMDDYYYY (d : Date) : Str :=
  pad2 d.month ++ ('/' :: (pad2 d.day ++ ('/' :: pad4 d.year)))

/-- `Account.get_last_full_date`: `None` when no backup archive exists,
otherwise the archive's modification date minus one calendar day,
formatted `MM/DD/YYYY`.  The filesystem is abstracted to the optional
modification date of the account's backup archive. -/
def get_last_full_date (backupMtime : Option Date) : Option Str :=
  match backupMtime with
  | none => none
  | some d => some (formatMMDDYYYY (predDate d))

/-- Days before January 1 of year `y`, proleptic Gregorian
(the count underlying Python `date.toordinal`). -/
def daysBeforeYear (y : Nat) : Nat :=
  365 * (y - 1) + (y - 1) / 4 - (y - 1) / 100 + (y - 1) / 400

def daysBeforeMonth (y m : Nat) : Nat :=
  ((List.range (m - 1)).map (fun k => daysInMonth y (k + 1))).sum

/-- Python `date.toordinal`: 0001-01-01 is day 1. -/
def toOrdinal (d : Date) : Nat :=
  daysBeforeYear d.year + daysBeforeMonth d.year d.month + d.day

lemma isLeapYear_iff (z : Nat) :
    isLeapYear z = true ↔ ((z % 4 = 0 ∧ ¬ z % 100 = 0) ∨ z % 400 = 0) := by
  simp [isLeapYear]

lemma daysBeforeMonth_one (y : Nat) : daysBeforeMonth y 1 = 0 := rfl

lemma daysBeforeMonth_succ (y m : Nat) (hm : 2 ≤ m) :
    daysBeforeMonth y m = daysBeforeMonth y (m - 1) + daysInMonth y (m - 1) := by
  unfold daysBeforeMonth
  have h : m - 1 = (m - 2) + 1 := by omega
  rw [h, Nat.add_sub_cancel, List.range_succ, List.map_append, List.sum_append]
  simp [← h]

lemma daysBeforeMonth_twelve (y : Nat) :
    daysBeforeMonth y 12 = if isLeapYear y then 335 else 334 := by
  unfold daysBeforeMonth
  have h : List.range (12 - 1) = [0, 1, 2, 3, 4, 5, 6, 7, 8, 9, 10] := by decide
  rw [h]
  by_cases hL : isLeapYear y <;> simp [daysInMonth, hL]

set_option maxHeartbeats 2000000 in
lemma daysBeforeYear_succ (z : Nat) (hz : 1 ≤ z) :
    daysBeforeYear (z + 1) =
      daysBeforeYear z + (if isLeapYear z then 366 else 365) := by
  by_cases hL : isLeapYear z
  · have hp := (isLeapYear_iff z).1 hL
    rw [if_pos hL]
    unfold daysBeforeYear
    omega
  · have hp : ¬ ((z % 4 = 0 ∧ ¬ z % 100 = 0) ∨ z % 400 = 0) := by
      rw [← isLeapYear_iff]
      simp [hL]
    rw [if_neg hL]
    unfold daysBeforeYear
    omega

/-- C8. Last-full-backup date skew: no artifact gives `None`; an artifact
gives its modification date minus one calendar day formatted `MM/DD/YYYY`
(in particular `2024-03-15 ↦ "03/14/2024"`), and `predDate` moves exactly
one day back in Python's ordinal day count on every valid date. -/
theorem last_full_date_skew :
    get_last_full_date none = none ∧
    (∀ d : Date, get_last_full_date (some d) = some (formatMMDDYYYY (predDate d))) ∧
    get_last_full_date (some ⟨2024, 3, 15⟩) = some ("03/14/2024".data) ∧
    get_last_full_date (some ⟨2024, 3, 1⟩) = some ("02/29/2024".data) ∧
    get_last_full_date (some ⟨2023, 3, 1⟩) = some ("02/28/2023".data) ∧
    get_last_full_date (some ⟨2024, 1, 1⟩) = some ("12/31/2023".data) ∧
    (∀ d : Date, d.valid → 2 ≤ d.year → toOrdinal (predDate d) + 1 = toOrdinal d) := by
  refine ⟨rfl, fun d => rfl, by decide, by decide, by decide, by decide, ?_⟩
  rintro ⟨y, m, day⟩ ⟨hy1, hm1, hm12, hd1, hdm⟩ hy2
  simp only at hy1 hm1 hm12 hd1 hdm hy2
  unfold predDate toOrdinal
  simp only
  by_cases hday : 1 < day
  · rw [if_pos hday]
    simp only
    omega
  · rw [if_neg hday]
    by_cases hm : 1 < m
    · rw [if_pos hm]
      have key := daysBeforeMonth_succ y m (by omega)
      simp only
      omega
    · rw [if_neg hm]
      have hmeq : m = 1 := by omega
      have hz : 1 ≤ y - 1 := by omega
      have hsucc := daysBeforeYear_succ (y - 1) hz
      have hyy : y - 1 + 1 = y := by omega
      rw [hyy] at hsucc
      have h12 := daysBeforeMonth_twelve (y - 1)
      subst hmeq
      simp only [daysBeforeMonth_one]
      by_cases hL : isLeapYear (y - 1) <;> simp [hL] at hsucc h12 <;> omega

theorem last_full_date_skew_witness :
    (Date.valid ⟨2024, 3, 15⟩ ∧ 2 ≤ (2024 : Nat)) ∧
    toOrdinal (predDate ⟨2024, 3, 15⟩) + 1 = toOrdinal ⟨2024, 3, 15⟩ :=
  ⟨⟨by decide, by decide⟩,
   last_full_date_skew.2.2.2.2.2.2 ⟨2024, 3, 15⟩ (by decide) (by decide)⟩

/-! ### LDIFF transform: `BackupManager.modify_ldiff_for_load_balancing`

The code splits the exported LDIFF text on newlines, rewrites
`zimbraMailHost:` lines, rewrites `zimbraMailTransport:` lines, drops
`zimbraPrefChildVisibleAccount:` lines, keeps everything else, and joins
the result with newlines. -/

/-- Python `content.split(sep)` for a one-character separator. -/
def splitOnChar (sep : Char) : Str → List Str
  | [] => [[]]
  | c :: cs =>
    if c = sep then [] :: splitOnChar sep cs
    else
      match splitOnChar sep cs with
      | p :: ps => (c :: p) :: ps
      | [] => [[c]]

/-- Python `sep.join(lines)` for a one-character separator. -/
def joinWith (sep : Char) : List Str → Str
  | [] => []
  | [l] => l
  | l :: ls => l ++ sep :: joinWith sep ls

def hostAttr : Str := "zimbraMailHost:".data

def transportAttr : Str := "zimbraMailTransport:".data

def childVisibleAttr : Str := "zimbraPrefChildVisibleAccount:".data

/-- The loop body of `modify_ldiff_for_load_balancing`, accumulating
`modified_lines`. -/
def modifyLoop (target : Str) : List Str → List Str → List Str
  | acc, [] => acc
  | acc, line :: rest =>
    if hostAttr.isPrefixOf line then
      modifyLoop target (acc ++ ["zimbraMailHost: ".data ++ target]) rest
    else if transportAttr.isPrefixOf line then
      modifyLoop target
        (acc ++ ["zimbraMailTransport: lmtp:".data ++ (target ++ ":7025".data)]) rest
    else if childVisibleAttr.isPrefixOf line then
      modifyLoop target acc rest
    else
      modifyLoop target (acc ++ [line]) rest

/-- `BackupManager.modify_ldiff_for_load_balancing`, as a function from the
LDIFF file content to the rewritten content. -/
def modify_ldiff_for_load_balancing (content target : Str) : Str :=
  joinWith '\n' (modifyLoop target [] (splitOnChar '\n' content))

/-- Per-line rule the loop implements. -/
def modifyLine (target : Str) (line : Str) : Option Str :=
  if hostAttr.isPrefixOf line then some ("zimbraMailHost: ".data ++ target)
  else if transportAttr.isPrefixOf line then
    some ("zimbraMailTransport: lmtp:".data ++ (target ++ ":7025".data))
  else if childVisibleAttr.isPrefixOf line then none
  else some line

lemma modifyLoop_eq_filterMap (target : Str) (lines acc : List Str) :
    modifyLoop target acc lines = acc ++ lines.filterMap (modifyLine target) := by
  induction lines generalizing acc with
  | nil => simp [modifyLoop]
  | cons line rest ih =>
    by_cases h1 : hostAttr.isPrefixOf line
    · simp [modifyLoop, modifyLine, h1, ih]
    · by_cases h2 : transportAttr.isPrefixOf line
      · simp [modifyLoop, modifyLine, h1, h2, ih]
      · by_cases h3 : childVisibleAttr.isPrefixOf line
        · simp [modifyLoop, modifyLine, h1, h2, h3, ih]
        · simp [modifyLoop, modifyLine, h1, h2, h3, ih]

/-- C6 counterexample: a `zimbraMailTransport:` line is NOT passed through
unchanged — the transform rewrites it to point at the target store. -/
theorem ldiff_transform_transport_cex :
    modify_ldiff_for_load_balancing
        ("zimbraMailTransport: lmtp:old.example.com:7025".data)
        ("newstore.example.com".data) =
      ("zimbraMailTransport: lmtp:newstore.example.com:7025".data) ∧
    modify_ldiff_for_load_balancing
        ("zimbraMailTransport: lmtp:old.example.com:7025".data)
        ("newstore.example.com".data) ≠
      ("zimbraMailTransport: lmtp:old.example.com:7025".data) := by
  constructor
  · decide
  · decide

/-- C6 (amended). The transform is a per-line filter-map that preserves the
relative order of retained lines: `zimbraMailHost:` lines are replaced with
the target store, `zimbraMailTransport:` lines are replaced with an LMTP
route to the target store, `zimbraPrefChildVisibleAccount:` lines are
dropped, and every other line passes through unchanged. -/
theorem ldiff_transform_amended (target : Str) :
    (∀ lines, modifyLoop target [] lines = lines.filterMap (modifyLine target)) ∧
    (∀ line, hostAttr.isPrefixOf line = true →
      modifyLine target line = some ("zimbraMailHost: ".data ++ target)) ∧
    (∀ line, hostAttr.isPrefixOf line = false →
      transportAttr.isPrefixOf line = true →
      modifyLine target line =
        some ("zimbraMailTransport: lmtp:".data ++ (target ++ ":7025".data))) ∧
    (∀ line, hostAttr.isPrefixOf line = false →
      transportAttr.isPrefixOf line = false →
      childVisibleAttr.isPrefixOf line = true → modifyLine target line = none) ∧
    (∀ line, hostAttr.isPrefixOf line = false →
      transportAttr.isPrefixOf line = false →
      childVisibleAttr.isPrefixOf line = false → modifyLine target line = some line) := by
  refine ⟨fun lines => by simpa using modifyLoop_eq_filterMap target lines [],
    fun line h1 => by simp [modifyLine, h1],
    fun line h1 h2 => by simp [modifyLine, h1, h2],
    fun line h1 h2 h3 => by simp [modifyLine, h1, h2, h3],
    fun line h1 h2 h3 => by simp [modifyLine, h1, h2, h3]⟩

theorem ldiff_transform_amended_witness :
    (hostAttr.isPrefixOf ("zimbraMailHost: old.example.com".data) = true) ∧
    modifyLine ("newstore.example.com".data) ("zimbraMailHost: old.example.com".data) =
      some ("zimbraMailHost: ".data ++ "newstore.example.com".data) :=
  ⟨by decide,
   (ldiff_transform_amended ("newstore.example.com".data)).2.1
     ("zimbraMailHost: old.example.com".data) (by decide)⟩

/-! ### Partitioning: `ZimbraMigrator.run_migration`

With one thread the single worker gets the whole list; otherwise worker `i`
gets `accounts[i*apt : i*apt+apt]` for `i < T-1` (`apt = len(accounts)//T`)
and the last worker gets `accounts[(T-1)*apt : len(accounts)]`. -/

def runMigrationBatches {α : Type} (accounts : List α) (numThreads : Nat) :
    List (List α) :=
  if numThreads = 1 then [accounts]
  else
    let apt := accounts.length / numThreads
    (List.range numThreads).map (fun i =>
      (accounts.drop (i * apt)).take
        ((if i < numThreads - 1 then i * apt + apt else accounts.length) - i * apt))

lemma map_congr_mem {β γ : Type} (l : List β) (f g : β → γ)
    (h : ∀ x ∈ l, f x = g x) : l.map f = l.map g := by
  induction l with
  | nil => rfl
  | cons x xs ih => simp [h x (by simp), ih fun y hy => h y (by simp [hy])]

lemma flatten_map_slices {α : Type} (q : Nat) (k : Nat) (l : List α) :
    ((List.range k).map (fun i => (l.drop (i * q)).take q)).flatten = l.take (k * q) := by
  induction k with
  | zero => simp
  | succ k ih =>
    rw [List.range_succ, List.map_append, List.flatten_append, ih]
    simp only [List.map_cons, List.map_nil, List.flatten_cons, List.flatten_nil,
      List.append_nil]
    rw [Nat.succ_mul, List.take_add]

/-- The slices produced by `run_migration` for `T ≥ 2` threads, with the
quotient `q` and remainder `r` of `len(accounts) / T` abstracted so that the
arithmetic is purely linear. -/
lemma partition_core {α : Type} (accounts : List α) (T q r : Nat) (hT2 : 2 ≤ T)
    (hTq : T * q + r = accounts.length) :
    ((List.range T).map (fun i =>
      (accounts.drop (i * q)).take
        ((if i < T - 1 then i * q + q else accounts.length) - i * q))).flatten =
      accounts ∧
    ((List.range T).map (fun i =>
      (accounts.drop (i * q)).take
        ((if i < T - 1 then i * q + q else accounts.length) - i * q))).map
        List.length =
      (List.range T).map (fun i => if i + 1 = T then q + r else q) := by
  have hmul : (T - 1) * q + q = T * q := by
    rw [← Nat.succ_mul]
    congr 1
    omega
  have hle : (T - 1) * q ≤ accounts.length := by omega
  have hr : List.range T = List.range (T - 1) ++ [T - 1] := by
    rw [← List.range_succ]
    congr 1
    omega
  constructor
  · rw [hr, List.map_append, List.flatten_append]
    have hmc : (List.range (T - 1)).map (fun i =>
          (accounts.drop (i * q)).take
            ((if i < T - 1 then i * q + q else accounts.length) - i * q)) =
        (List.range (T - 1)).map (fun i => (accounts.drop (i * q)).take q) := by
      refine map_congr_mem _ _ _ fun i hi => ?_
      rw [List.mem_range] at hi
      rw [if_pos hi, Nat.add_sub_cancel_left]
    rw [hmc, flatten_map_slices]
    simp only [List.map_cons, List.map_nil, List.flatten_cons, List.flatten_nil,
      List.append_nil, if_neg (lt_irrefl (T - 1))]
    have hdt : (accounts.drop ((T - 1) * q)).take
          (accounts.length - (T - 1) * q) = accounts.drop ((T - 1) * q) := by
      have hl : accounts.length - (T - 1) * q =
          (accounts.drop ((T - 1) * q)).length := by simp
      rw [hl, List.take_length]
    rw [hdt, List.take_append_drop]
  · rw [List.map_map]
    refine map_congr_mem _ _ _ fun i hi => ?_
    rw [List.mem_range] at hi
    by_cases hlast : i < T - 1
    · have hne : ¬ i + 1 = T := by omega
      rw [if_neg hne]
      simp only [Function.comp_apply, if_pos hlast, Nat.add_sub_cancel_left]
      rw [List.length_take, List.length_drop]
      have hiq : (i + 1) * q ≤ T * q := Nat.mul_le_mul_right _ (by omega)
      rw [Nat.succ_mul] at hiq
      omega
    · have hieq : i = T - 1 := by omega
      have heq : i + 1 = T := by omega
      rw [if_pos heq]
      subst hieq
      simp only [Function.comp_apply, if_neg (lt_irrefl (T - 1))]
      rw [List.length_take, List.length_drop]
      omega

/-- C7 counterexample: with 2 accounts and 4 threads the batch sizes are
`[0, 0, 0, 2]`, so two batch sizes can differ by more than one (and by more
than the largest size minus one). -/
theorem partition_balance_cex :
    (runMigrationBatches ([0, 1] : List Nat) 4).map List.length = [0, 0, 0, 2] ∧
    ¬ (∀ s ∈ (runMigrationBatches ([0, 1] : List Nat) 4).map List.length,
        ∀ t ∈ (runMigrationBatches ([0, 1] : List Nat) 4).map List.length,
        s ≤ t + 1) := by
  constructor
  · decide
  · decide

/-- C7 (amended). For every account list and thread count `T ≥ 1` the
batches are contiguous slices whose concatenation in worker order is the
original list (each account covered exactly once, the last worker taking
the remainder); every worker except the last receives exactly `⌊N/T⌋`
accounts and the last receives `⌊N/T⌋ + N mod T`, so batch sizes can differ
by up to `N mod T ≤ T - 1`, not by at most one. -/
theorem partition_coverage_amended {α : Type} (accounts : List α) (T : Nat)
    (hT : 1 ≤ T) :
    (runMigrationBatches accounts T).flatten = accounts ∧
    (runMigrationBatches accounts T).map List.length =
      (List.range T).map (fun i =>
        if i + 1 = T then accounts.length / T + accounts.length % T
        else accounts.length / T) := by
  by_cases h1 : T = 1
  · subst h1
    refine ⟨by simp [runMigrationBatches], ?_⟩
    have hr1 : List.range 1 = [0] := by decide
    simp [runMigrationBatches, hr1, Nat.div_one, Nat.mod_one]
  · have hT2 : 2 ≤ T := by omega
    have hTq : T * (accounts.length / T) + accounts.length % T = accounts.length :=
      Nat.div_add_mod accounts.length T
    have hcore := partition_core accounts T (accounts.length / T)
      (accounts.length % T) hT2 hTq
    unfold runMigrationBatches
    rw [if_neg h1]
    exact hcore

theorem partition_coverage_amended_witness :
    (1 : Nat) ≤ 2 ∧
    (runMigrationBatches ([10, 20, 30] : List Nat) 2).flatten = [10, 20, 30] ∧
    (runMigrationBatches ([10, 20, 30] : List Nat) 2).map List.length =
      (List.range 2).map (fun i => if i + 1 = 2 then 3 / 2 + 3 % 2 else 3 / 2) :=
  ⟨by decide, (partition_coverage_amended [10, 20, 30] 2 (by decide)).1,
   (partition_coverage_amended [10, 20, 30] 2 (by decide)).2⟩

/-! ### Worker model: `BackupManager` transfer operations and
`MigrationWorker` passes

Accounts carry the mutable per-phase flags of `Account`.  The external
world (the two Zimbra stores and the filesystem artifacts) is abstracted by
`Env`: the success of each external transfer call keyed by account address,
the observable `get_last_full_date` value, and the size of the incremental
artifact (`none` = missing file, so `inc_path.stat()` raises).  Every
external transfer invocation is recorded as an `Event` so that call counts
and call order can be stated. -/

structure Account where
  mail : Str
  mail_dst : Str
  zimbra_mail_host : Str
  is_migrated : Bool := false
  is_exported : Bool := false
  is_incr_migrated : Bool := false
  is_incr_exported : Bool := false
  is_ldiff_exported : Bool := false
  is_ldiff_imported : Bool := false
deriving DecidableEq

inductive MType
  | ldiff
  | full
  | incr
deriving DecidableEq

inductive Event
  | exportCall (t : MType) (mail : Str)
  | importCall (t : MType) (mail : Str)
  | cutoverCall (mail : Str)
deriving DecidableEq

structure Env where
  ldiffExportOk : Str → Bool
  ldiffImportOk : Str → Bool
  fullExportOk : Str → Bool
  fullImportOk : Str → Bool
  incrExportOk : Str → Bool
  incrImportOk : Str → Bool
  lastFullDate : Str → Option Str
  incrSize : Str → Str → Option Nat

/-- `BackupManager.export_ldiff`: runs `ldapsearch`, sets
`is_ldiff_exported` from the outcome. -/
def export_ldiff (env : Env) (a : Account) : Account × Bool × List Event :=
  ({ a with is_ldiff_exported := env.ldiffExportOk a.mail },
   env.ldiffExportOk a.mail, [Event.exportCall MType.ldiff a.mail])

/-- `BackupManager.import_ldiff`: refuses (no call) unless
`is_ldiff_exported`; otherwise runs `ldapadd` and sets `is_ldiff_imported`
from the outcome. -/
def import_ldiff (env : Env) (a : Account) : Account × Bool × List Event :=
  if a.is_ldiff_exported = false then (a, false, [])
  else ({ a with is_ldiff_imported := env.ldiffImportOk a.mail },
    env.ldiffImportOk a.mail, [Event.importCall MType.ldiff a.mail])

/-- `BackupManager.export_full_backup`: runs the HTTPS export and sets
`is_exported` from the curl-response predicate. -/
def export_full_backup (env : Env) (a : Account) : Account × Bool × List Event :=
  ({ a with is_exported := env.fullExportOk a.mail }, env.fullExportOk a.mail,
   [Event.exportCall MType.full a.mail])

/-- `BackupManager.import_full_backup`: refuses (no call) unless
`is_exported`; otherwise uploads and sets `is_migrated` from the outcome. -/
def import_full_backup (env : Env) (a : Account) : Account × Bool × List Event :=
  if a.is_exported = false then (a, false, [])
  else ({ a with is_migrated := env.fullImportOk a.mail }, env.fullImportOk a.mail,
    [Event.importCall MType.full a.mail])

/-- `BackupManager.export_incremental_backup`. -/
def export_incremental_backup (env : Env) (a : Account) (_incDate : Str) :
    Account × Bool × List Event :=
  ({ a with is_incr_exported := env.incrExportOk a.mail }, env.incrExportOk a.mail,
   [Event.exportCall MType.incr a.mail])

/-- `BackupManager.import_incremental_backup`.  `Except.error` models the
uncaught exception `inc_path.stat()` raises when the incremental artifact is
missing.  A zero-byte artifact skips the import call, marks the account
incrementally migrated, performs cutover and reports success.  Otherwise the
upload runs, and on success the account is marked and cutover runs. -/
def import_incremental_backup (env : Env) (a : Account) (incDate : Str) :
    Except Unit (Account × Bool × List Event) :=
  match env.incrSize a.mail incDate with
  | none => Except.error ()
  | some 0 =>
    Except.ok ({ a with is_incr_migrated := true }, true, [Event.cutoverCall a.mail])
  | some (_ + 1) =>
    if env.incrImportOk a.mail then
      Except.ok ({ a with is_incr_migrated := true }, true,
        [Event.importCall MType.incr a.mail, Event.cutoverCall a.mail])
    else
      Except.ok ({ a with is_incr_migrated := false }, false,
        [Event.importCall MType.incr a.mail])

structure RunOut where
  ledger : List Str
  accounts : List Account
  events : List Event
  aborted : Bool
deriving DecidableEq

/-- One account of the loop in `MigrationWorker._process_ldiff`: export,
then — if the export succeeded and a target store is assigned — the local
`modify_ldiff_for_load_balancing` rewrite (no external call) followed by
the import. -/
def ldiffStep (env : Env) (target : Option Str) (a : Account) :
    Account × List Event :=
  let r := export_ldiff env a
  match target with
  | some _ =>
    if r.1.is_ldiff_exported then
      let r2 := import_ldiff env r.1
      (r2.1, r.2.2 ++ r2.2.2)
    else (r.1, r.2.2)
  | none => (r.1, r.2.2)

/-- `MigrationWorker._process_ldiff` over the worker's batch. -/
def process_ldiff (env : Env) (target : Option Str) (ledger : List Str) :
    List Account → RunOut
  | [] => ⟨ledger, [], [], false⟩
  | a :: rest =>
    let s := ldiffStep env target a
    let r := process_ldiff env target ledger rest
    ⟨ledger, s.1 :: r.accounts, s.2 ++ r.events, false⟩

/-- Export half of `MigrationWorker._process_full_migration` for one
account: skip (marking `is_exported`) when the ledger has `FULL-EXPORT`,
otherwise export and on success record `FULL-EXPORT;last_full_date` when a
last-full date is available. -/
def fullExportStep (env : Env) (ledger : List Str) (a : Account) :
    List Str × Account × List Event :=
  if check_session ledger a.mail feTag then
    (ledger, { a with is_exported := true }, [])
  else
    let r := export_full_backup env a
    if r.2.1 then
      match env.lastFullDate a.mail with
      | some d => (record_session ledger a.mail (feTag ++ ';' :: d), r.1, r.2.2)
      | none => (ledger, r.1, r.2.2)
    else (ledger, r.1, r.2.2)

def fullExportPass (env : Env) : List Str → List Account → RunOut
  | ledger, [] => ⟨ledger, [], [], false⟩
  | ledger, a :: rest =>
    let s := fullExportStep env ledger a
    let r := fullExportPass env s.1 rest
    ⟨r.ledger, s.2.1 :: r.accounts, s.2.2 ++ r.events, false⟩

/-- Import half of `MigrationWorker._process_full_migration` for one
account: skip (marking `is_migrated`) when the ledger has `FULL-IMPORT`,
otherwise import only if `is_exported`, recording `FULL-IMPORT` on
success when a last-full date is available. -/
def fullImportStep (env : Env) (ledger : List Str) (a : Account) :
    List Str × Account × List Event :=
  if check_session ledger a.mail fiTag then
    (ledger, { a with is_migrated := true }, [])
  else if a.is_exported then
    let r := import_full_backup env a
    if r.2.1 then
      match env.lastFullDate a.mail with
      | some d => (record_session ledger a.mail (fiTag ++ ';' :: d), r.1, r.2.2)
      | none => (ledger, r.1, r.2.2)
    else (ledger, r.1, r.2.2)
  else (ledger, a, [])

def fullImportPass (env : Env) : List Str → List Account → RunOut
  | ledger, [] => ⟨ledger, [], [], false⟩
  | ledger, a :: rest =>
    let s := fullImportStep env ledger a
    let r := fullImportPass env s.1 rest
    ⟨r.ledger, s.2.1 :: r.accounts, s.2.2 ++ r.events, false⟩

/-- `MigrationWorker._process_full_migration`: the export pass over the
whole batch, then the import pass over the whole batch. -/
def process_full_migration (env : Env) (ledger : List Str)
    (accounts : List Account) : RunOut :=
  let e := fullExportPass env ledger accounts
  let i := fullImportPass env e.ledger e.accounts
  ⟨i.ledger, i.accounts, e.events ++ i.events, false⟩

/-- `inc_date = self.inc_date or account.get_last_full_date()`. -/
def effIncDate (env : Env) (wdate : Option Str) (a : Account) : Option Str :=
  wdate.orElse fun _ => env.lastFullDate a.mail

/-- Export half of `MigrationWorker._process_incremental_migration` for one
account: skip with a warning when no date is available; otherwise export
and record `INCR-EXPORT;inc_date` if the export flag was set. -/
def incrExportStep (env : Env) (wdate : Option Str) (ledger : List Str)
    (a : Account) : List Str × Account × List Event :=
  match effIncDate env wdate a with
  | none => (ledger, a, [])
  | some d =>
    let r := export_incremental_backup env a d
    if r.1.is_incr_exported then
      (record_session ledger a.mail (ieTag ++ ';' :: d), r.1, r.2.2)
    else (ledger, r.1, r.2.2)

def incrExportPass (env : Env) (wdate : Option Str) :
    List Str → List Account → RunOut
  | ledger, [] => ⟨ledger, [], [], false⟩
  | ledger, a :: rest =>
    let s := incrExportStep env wdate ledger a
    let r := incrExportPass env wdate s.1 rest
    ⟨r.ledger, s.2.1 :: r.accounts, s.2.2 ++ r.events, false⟩

/-- Import half of `MigrationWorker._process_incremental_migration`.  An
`Except.error` from a missing artifact propagates out of the loop: the
remaining accounts of the batch are left untouched and the pass reports
`aborted`. -/
def incrImportPass (env : Env) (wdate : Option Str) :
    List Str → List Account → RunOut
  | ledger, [] => ⟨ledger, [], [], false⟩
  | ledger, a :: rest =>
    match effIncDate env wdate a with
    | none =>
      let r := incrImportPass env wdate ledger rest
      ⟨r.ledger, a :: r.accounts, r.events, r.aborted⟩
    | some d =>
      match import_incremental_backup env a d with
      | Except.error _ => ⟨ledger, a :: rest, [], true⟩
      | Except.ok (a2, ok, evs) =>
        let ledger2 := if ok then record_session ledger a.mail (iiTag ++ ';' :: d)
                       else ledger
        let r := incrImportPass env wdate ledger2 rest
        ⟨r.ledger, a2 :: r.accounts, evs ++ r.events, r.aborted⟩

/-- `MigrationWorker._process_incremental_migration`: export pass over the
batch, then import pass over the batch. -/
def process_incremental_migration (env : Env) (wdate : Option Str)
    (ledger : List Str) (accounts : List Account) : RunOut :=
  let e := incrExportPass env wdate ledger accounts
  let i := incrImportPass env wdate e.ledger e.accounts
  ⟨i.ledger, i.accounts, e.events ++ i.events, i.aborted⟩

structure WorkerCfg where
  do_full : Bool
  do_incr : Bool
  do_ldiff : Bool
  inc_date : Option Str
  target : Option Str

/-- `MigrationWorker.run`: LDIFF, then full, then incremental; the
surrounding `try/except` logs an exception that escapes a phase (here only
the missing-artifact error of the incremental import) and ends the worker
without propagating it to other workers. -/
def workerRun (env : Env) (cfg : WorkerCfg) (ledger : List Str)
    (accounts : List Account) : RunOut :=
  let r1 := if cfg.do_ldiff then process_ldiff env cfg.target ledger accounts
            else ⟨ledger, accounts, [], false⟩
  let r2 := if cfg.do_full then process_full_migration env r1.ledger r1.accounts
            else ⟨r1.ledger, r1.accounts, [], false⟩
  let r3 := if cfg.do_incr then
              process_incremental_migration env cfg.inc_date r2.ledger r2.accounts
            else ⟨r2.ledger, r2.accounts, [], false⟩
  ⟨r3.ledger, r3.accounts, r1.events ++ (r2.events ++ r3.events), r3.aborted⟩

/-- What the incremental import pass does to one account, in isolation. -/
def incrImportOne (env : Env) (wdate : Option Str) (a : Account) : Account :=
  match effIncDate env wdate a with
  | none => a
  | some d =>
    match import_incremental_backup env a d with
    | Except.error _ => a
    | Except.ok (a2, _, _) => a2

def isExportOf (t : MType) : Event → Bool
  | Event.exportCall t2 _ => t == t2
  | _ => false

def isImportOf (t : MType) : Event → Bool
  | Event.importCall t2 _ => t == t2
  | _ => false

/-- Scans an event trace; `false` iff an export call of type `t` occurs
after an import call of type `t` (i.e. the trace violates the batched
export-before-import order for that migration type). -/
def noExportAfterImport (t : MType) : Bool → List Event → Bool
  | _, [] => true
  | seen, e :: rest =>
    if seen && isExportOf t e then false
    else noExportAfterImport t (seen || isImportOf t e) rest

/-! ### C5: zero-byte incremental no-op -/

/-- C5. Zero-byte incremental no-op: if the incremental export artifact has
size 0, the import returns success without making any external import call,
sets `is_incr_migrated` and still invokes cutover. -/
theorem zero_byte_incremental_noop (env : Env) (a : Account) (d : Str)
    (h : env.incrSize a.mail d = some 0) :
    import_incremental_backup env a d =
      Except.ok ({ a with is_incr_migrated := true }, true,
        [Event.cutoverCall a.mail]) ∧
    ∀ t m, Event.importCall t m ∉ ([Event.cutoverCall a.mail] : List Event) := by
  constructor
  · unfold import_incremental_backup
    rw [h]
  · intro t m
    simp

def wEnv5 : Env :=
  ⟨fun _ => true, fun _ => true, fun _ => true, fun _ => true, fun _ => true,
   fun _ => true, fun _ => none, fun _ _ => some 0⟩

def wAcct5 : Account :=
  ⟨"a@old.example.com".data, "a@new.example.com".data, "store1".data,
   false, false, false, false, false, false⟩

theorem zero_byte_incremental_noop_witness :
    wEnv5.incrSize wAcct5.mail ("03/14/2024".data) = some 0 ∧
    import_incremental_backup wEnv5 wAcct5 ("03/14/2024".data) =
      Except.ok ({ wAcct5 with is_incr_migrated := true }, true,
        [Event.cutoverCall wAcct5.mail]) :=
  ⟨rfl, (zero_byte_incremental_noop wEnv5 wAcct5 ("03/14/2024".data) rfl).1⟩

/-! ### C3: import-after-export invariant -/

def cEnv3 : Env :=
  ⟨fun _ => true, fun _ => true, fun _ => true, fun _ => true,
   fun _ => false, fun _ => true, fun _ => some ("03/14/2024".data),
   fun _ _ => some 0⟩

def cAcct3 : Account :=
  ⟨"c@old.example.com".data, "c@new.example.com".data, "store1".data,
   false, false, false, false, false, false⟩

/-- C3 counterexample: in an incremental run whose export call fails
(`is_incr_exported` stays `false`) but whose artifact exists with size 0,
the import pass still marks the account incrementally migrated — with no
`INCR-EXPORT` ledger evidence from any prior run either.  The
incremental import consults neither `is_incr_exported` nor the ledger. -/
theorem incr_import_without_export_cex :
    (process_incremental_migration cEnv3 none [] [cAcct3]).accounts =
      [⟨"c@old.example.com".data, "c@new.example.com".data, "store1".data,
        false, false, true, false, false, false⟩] ∧
    check_session (process_incremental_migration cEnv3 none [] [cAcct3]).ledger
      cAcct3.mail ieTag = false := by
  constructor
  · decide
  · decide

/-- C3 (amended). For the LDIFF and full migration types the invariant
holds: `is_ldiff_imported` and `is_migrated` can newly become `true` only
when the corresponding export flag is already `true` (or, for the
worker-level full-import step, when the ledger holds a `FULL-IMPORT` entry
for the account from a prior run).  The incremental import, however, does
not consult `is_incr_exported` or the ledger at all, so `is_incr_migrated`
can become `true` without the incremental export ever having succeeded. -/
theorem import_requires_export_amended :
    (∀ (env : Env) (a : Account), a.is_migrated = false →
      ((import_full_backup env a).1).is_migrated = true → a.is_exported = true) ∧
    (∀ (env : Env) (a : Account), a.is_ldiff_imported = false →
      ((import_ldiff env a).1).is_ldiff_imported = true →
      a.is_ldiff_exported = true) ∧
    (∀ (env : Env) (ledger : List Str) (a : Account), a.is_migrated = false →
      ((fullImportStep env ledger a).2.1).is_migrated = true →
      a.is_exported = true ∨ check_session ledger a.mail fiTag = true) := by
  refine ⟨fun env a h1 h2 => ?_, fun env a h1 h2 => ?_,
    fun env ledger a h1 h2 => ?_⟩
  · by_cases he : a.is_exported = true
    · exact he
    · exfalso
      simp only [Bool.not_eq_true] at he
      simp [import_full_backup, he, h1] at h2
  · by_cases he : a.is_ldiff_exported = true
    · exact he
    · exfalso
      simp only [Bool.not_eq_true] at he
      simp [import_ldiff, he, h1] at h2
  · by_cases hc : check_session ledger a.mail fiTag = true
    · exact Or.inr hc
    · by_cases he : a.is_exported = true
      · exact Or.inl he
      · exfalso
        simp only [Bool.not_eq_true] at he
        simp [fullImportStep, hc, he, h1] at h2

def wEnv3 : Env :=
  ⟨fun _ => true, fun _ => true, fun _ => true, fun _ => true, fun _ => true,
   fun _ => true, fun _ => none, fun _ _ => some 1⟩

def wAcct3 : Account :=
  ⟨"b@old.example.com".data, "b@new.example.com".data, "store1".data,
   false, true, false, false, false, false⟩

theorem import_requires_export_amended_witness :
    wAcct3.is_migrated = false ∧
    ((import_full_backup wEnv3 wAcct3).1).is_migrated = true ∧
    wAcct3.is_exported = true :=
  ⟨rfl, by decide,
   import_requires_export_amended.1 wEnv3 wAcct3 rfl (by decide)⟩

/-! ### C9: per-account failure isolation -/

def cEnv9 : Env :=
  ⟨fun _ => true, fun _ => true, fun _ => true, fun _ => true,
   fun m => !(m == "a@old.example.com".data), fun _ => true,
   fun _ => some ("03/14/2024".data),
   fun m _ => if m == "a@old.example.com".data then none else some 5⟩

def cAcct9a : Account :=
  ⟨"a@old.example.com".data, "a@new.example.com".data, "store1".data,
   false, false, false, false, false, false⟩

def cAcct9b : Account :=
  ⟨"b@old.example.com".data, "b@new.example.com".data, "store1".data,
   false, false, false, false, false, false⟩

/-- C9 counterexample: in an incremental-only worker run over a two-account
batch, the first account's incremental artifact is missing (its export call
failed), so `inc_path.stat()` raises; the exception is only caught at
worker level, the run reports aborted, and the second account — whose
artifact is present and whose import would succeed — is never imported.
A single account's failure thus does not leave processing of the remaining
accounts of the batch intact. -/
theorem missing_artifact_aborts_worker_cex :
    (workerRun cEnv9 ⟨false, true, false, none, none⟩ [] [cAcct9a, cAcct9b]).aborted
      = true ∧
    (∀ a ∈ (workerRun cEnv9 ⟨false, true, false, none, none⟩ []
        [cAcct9a, cAcct9b]).accounts, a.is_incr_migrated = false) ∧
    Event.importCall MType.incr cAcct9b.mail ∉
      (workerRun cEnv9 ⟨false, true, false, none, none⟩ [] [cAcct9a, cAcct9b]).events ∧
    cEnv9.incrSize cAcct9b.mail ("03/14/2024".data) = some 5 ∧
    cEnv9.incrImportOk cAcct9b.mail = true := by
  refine ⟨by decide, by decide, by decide, by decide, by decide⟩

lemma import_incr_ok (env : Env) (a : Account) (d : Str)
    (hs : env.incrSize a.mail d ≠ none) :
    ∃ a2 ok evs, import_incremental_backup env a d = Except.ok (a2, ok, evs) := by
  unfold import_incremental_backup
  rcases h2 : env.incrSize a.mail d with _ | n
  · exact absurd h2 hs
  · rcases n with _ | k
    · exact ⟨_, _, _, rfl⟩
    · by_cases hi : env.incrImportOk a.mail = true
      · rw [if_pos hi]
        exact ⟨_, _, _, rfl⟩
      · rw [if_neg hi]
        exact ⟨_, _, _, rfl⟩

lemma incrImportPass_no_missing (env : Env) (wdate : Option Str) :
    ∀ (accounts : List Account) (ledger : List Str),
    (∀ a ∈ accounts, ∀ d, effIncDate env wdate a = some d →
      env.incrSize a.mail d ≠ none) →
    (incrImportPass env wdate ledger accounts).aborted = false ∧
    (incrImportPass env wdate ledger accounts).accounts =
      accounts.map (incrImportOne env wdate) := by
  intro accounts
  induction accounts with
  | nil =>
    intro ledger h
    exact ⟨rfl, rfl⟩
  | cons a rest ih =>
    intro ledger h
    have hrest : ∀ b ∈ rest, ∀ d, effIncDate env wdate b = some d →
        env.incrSize b.mail d ≠ none := fun b hb => h b (by simp [hb])
    rcases hd : effIncDate env wdate a with _ | d
    · have hr := ih ledger hrest
      simp only [incrImportPass, hd, List.map_cons]
      refine ⟨hr.1, ?_⟩
      rw [hr.2]
      congr 1
      simp [incrImportOne, hd]
    · obtain ⟨a2, ok, evs, heq⟩ :=
        import_incr_ok env a d (h a (by simp) d hd)
      have hr := ih (if ok then record_session ledger a.mail (iiTag ++ ';' :: d)
        else ledger) hrest
      simp only [incrImportPass, hd, heq, List.map_cons]
      refine ⟨hr.1, ?_⟩
      rw [hr.2]
      congr 1
      simp [incrImportOne, hd, heq]

lemma fullExportPass_length (env : Env) :
    ∀ (accounts : List Account) (ledger : List Str),
    (fullExportPass env ledger accounts).accounts.length = accounts.length := by
  intro accounts
  induction accounts with
  | nil => intro ledger; rfl
  | cons a rest ih =>
    intro ledger
    simp [fullExportPass, ih]

lemma fullImportPass_length (env : Env) :
    ∀ (accounts : List Account) (ledger : List Str),
    (fullImportPass env ledger accounts).accounts.length = accounts.length := by
  intro accounts
  induction accounts with
  | nil => intro ledger; rfl
  | cons a rest ih =>
    intro ledger
    simp [fullImportPass, ih]

/-- C9 (amended). Failures that the transfer calls report through their
return status are isolated per account: a failing incremental import marks
only that account's flag failed, and as long as no artifact is missing the
incremental import pass never aborts and processes every account of the
batch, each account's outcome depending only on that account.  The full
migration likewise never aborts and processes every account.  (A missing
incremental artifact, in contrast, raises: the worker logs it and stops
processing its remaining accounts — see the counterexample.) -/
theorem failure_isolation_amended (env : Env) (wdate : Option Str)
    (ledger : List Str) (accounts : List Account)
    (h : ∀ a ∈ accounts, ∀ d, effIncDate env wdate a = some d →
      env.incrSize a.mail d ≠ none) :
    (incrImportPass env wdate ledger accounts).aborted = false ∧
    (incrImportPass env wdate ledger accounts).accounts =
      accounts.map (incrImportOne env wdate) ∧
    (∀ (env2 : Env) (a : Account) (d : Str) (n : Nat),
      env2.incrSize a.mail d = some (n + 1) → env2.incrImportOk a.mail = false →
      import_incremental_backup env2 a d =
        Except.ok ({ a with is_incr_migrated := false }, false,
          [Event.importCall MType.incr a.mail])) ∧
    (process_full_migration env ledger accounts).aborted = false ∧
    (process_full_migration env ledger accounts).accounts.length =
      accounts.length := by
  obtain ⟨hab, hmap⟩ := incrImportPass_no_missing env wdate accounts ledger h
  refine ⟨hab, hmap, ?_, rfl, ?_⟩
  · intro env2 a d n hs hi
    unfold import_incremental_backup
    rw [hs, if_neg (by simp [hi])]
  · simp [process_full_migration, fullImportPass_length, fullExportPass_length]

def wEnv9 : Env :=
  ⟨fun _ => true, fun _ => true, fun _ => true, fun _ => true, fun _ => true,
   fun m => !(m == "a@old.example.com".data),
   fun _ => some ("03/14/2024".data), fun _ _ => some 5⟩

theorem failure_isolation_amended_witness :
    (∀ a ∈ [cAcct9a, cAcct9b], ∀ d, effIncDate wEnv9 none a = some d →
      wEnv9.incrSize a.mail d ≠ none) ∧
    (incrImportPass wEnv9 none [] [cAcct9a, cAcct9b]).aborted = false ∧
    (incrImportPass wEnv9 none [] [cAcct9a, cAcct9b]).accounts =
      [cAcct9a, cAcct9b].map (incrImportOne wEnv9 none) :=
  ⟨by decide,
   (failure_isolation_amended wEnv9 none [] [cAcct9a, cAcct9b] (by decide)).1,
   (failure_isolation_amended wEnv9 none [] [cAcct9a, cAcct9b] (by decide)).2.1⟩

/-! ### C4: two-pass batching order -/

lemma fullExportStep_events (env : Env) (ledger : List Str) (a : Account) :
    (fullExportStep env ledger a).2.2 = [] ∨
    (fullExportStep env ledger a).2.2 = [Event.exportCall MType.full a.mail] := by
  by_cases hc : check_session ledger a.mail feTag = true
  · left
    simp [fullExportStep, hc]
  · by_cases ho : env.fullExportOk a.mail = true
    · rcases hl : env.lastFullDate a.mail with _ | dd
      · right
        simp [fullExportStep, export_full_backup, hc, ho, hl]
      · right
        simp [fullExportStep, export_full_backup, hc, ho, hl]
    · right
      simp [fullExportStep, export_full_backup, hc, ho]

lemma fullImportStep_events (env : Env) (ledger : List Str) (a : Account) :
    (fullImportStep env ledger a).2.2 = [] ∨
    (fullImportStep env ledger a).2.2 = [Event.importCall MType.full a.mail] := by
  by_cases hc : check_session ledger a.mail fiTag = true
  · left
    simp [fullImportStep, hc]
  · by_cases he : a.is_exported = true
    · by_cases ho : env.fullImportOk a.mail = true
      · rcases hl : env.lastFullDate a.mail with _ | dd
        · right
          simp [fullImportStep, import_full_backup, hc, he, ho, hl]
        · right
          simp [fullImportStep, import_full_backup, hc, he, ho, hl]
      · right
        simp [fullImportStep, import_full_backup, hc, he, ho]
    · left
      simp only [Bool.not_eq_true] at he
      simp [fullImportStep, hc, he]

lemma incrExportStep_events (env : Env) (wdate : Option Str) (ledger : List Str)
    (a : Account) :
    (incrExportStep env wdate ledger a).2.2 = [] ∨
    (incrExportStep env wdate ledger a).2.2 = [Event.exportCall MType.incr a.mail] := by
  rcases hd : effIncDate env wdate a with _ | d
  · left
    simp [incrExportStep, hd]
  · by_cases ho : env.incrExportOk a.mail = true
    · right
      simp [incrExportStep, export_incremental_backup, hd, ho]
    · right
      simp [incrExportStep, export_incremental_backup, hd, ho]

lemma import_incr_no_export (env : Env) (a : Account) (d : Str)
    (a2 : Account) (ok : Bool) (evs : List Event)
    (h : import_incremental_backup env a d = Except.ok (a2, ok, evs)) :
    ∀ e ∈ evs, isExportOf MType.incr e = false := by
  unfold import_incremental_backup at h
  rcases hs : env.incrSize a.mail d with _ | n <;> rw [hs] at h
  · cases h
  · rcases n with _ | k
    · simp only [Except.ok.injEq, Prod.mk.injEq] at h
      obtain ⟨-, -, hev⟩ := h
      intro e he
      rw [← hev] at he
      simp at he
      subst he
      rfl
    · by_cases hi : env.incrImportOk a.mail = true
      · rw [if_pos hi] at h
        simp only [Except.ok.injEq, Prod.mk.injEq] at h
        obtain ⟨-, -, hev⟩ := h
        intro e he
        rw [← hev] at he
        simp at he
        rcases he with he | he <;> subst he <;> rfl
      · rw [if_neg hi] at h
        simp only [Except.ok.injEq, Prod.mk.injEq] at h
        obtain ⟨-, -, hev⟩ := h
        intro e he
        rw [← hev] at he
        simp at he
        subst he
        rfl

lemma fullExportPass_no_import (env : Env) :
    ∀ (accounts : List Account) (ledger : List Str),
    ∀ e ∈ (fullExportPass env ledger accounts).events,
      isImportOf MType.full e = false := by
  intro accounts
  induction accounts with
  | nil =>
    intro ledger e he
    simp [fullExportPass] at he
  | cons a rest ih =>
    intro ledger e he
    simp only [fullExportPass, List.mem_append] at he
    rcases he with he | he
    · rcases fullExportStep_events env ledger a with h0 | h0 <;> rw [h0] at he
      · simp at he
      · simp at he
        subst he
        rfl
    · exact ih _ e he

lemma fullImportPass_no_export (env : Env) :
    ∀ (accounts : List Account) (ledger : List Str),
    ∀ e ∈ (fullImportPass env ledger accounts).events,
      isExportOf MType.full e = false := by
  intro accounts
  induction accounts with
  | nil =>
    intro ledger e he
    simp [fullImportPass] at he
  | cons a rest ih =>
    intro ledger e he
    simp only [fullImportPass, List.mem_append] at he
    rcases he with he | he
    · rcases fullImportStep_events env ledger a with h0 | h0 <;> rw [h0] at he
      · simp at he
      · simp at he
        subst he
        rfl
    · exact ih _ e he

lemma incrExportPass_no_import (env : Env) (wdate : Option Str) :
    ∀ (accounts : List Account) (ledger : List Str),
    ∀ e ∈ (incrExportPass env wdate ledger accounts).events,
      isImportOf MType.incr e = false := by
  intro accounts
  induction accounts with
  | nil =>
    intro ledger e he
    simp [incrExportPass] at he
  | cons a rest ih =>
    intro ledger e he
    simp only [incrExportPass, List.mem_append] at he
    rcases he with he | he
    · rcases incrExportStep_events env wdate ledger a with h0 | h0 <;> rw [h0] at he
      · simp at he
      · simp at he
        subst he
        rfl
    · exact ih _ e he

lemma incrImportPass_no_export (env : Env) (wdate : Option Str) :
    ∀ (accounts : List Account) (ledger : List Str),
    ∀ e ∈ (incrImportPass env wdate ledger accounts).events,
      isExportOf MType.incr e = false := by
  intro accounts
  induction accounts with
  | nil =>
    intro ledger e he
    simp [incrImportPass] at he
  | cons a rest ih =>
    intro ledger e he
    rcases hd : effIncDate env wdate a with _ | d
    · simp only [incrImportPass, hd] at he
      exact ih _ e he
    · cases himp : import_incremental_backup env a d with
      | error u =>
        simp only [incrImportPass, hd, himp] at he
        simp at he
      | ok res =>
        obtain ⟨a2, ok, evs⟩ := res
        simp only [incrImportPass, hd, himp, List.mem_append] at he
        rcases he with he | he
        · exact import_incr_no_export env a d a2 ok evs himp e he
        · exact ih _ e he

lemma noExportAfterImport_of_no_export (t : MType) :
    ∀ (B : List Event) (b : Bool), (∀ e ∈ B, isExportOf t e = false) →
    noExportAfterImport t b B = true := by
  intro B
  induction B with
  | nil =>
    intro b h
    rfl
  | cons e rest ih =>
    intro b h
    have he := h e (by simp)
    simp only [noExportAfterImport, he, Bool.and_false, if_neg (by simp : ¬ False)]
    exact ih _ fun x hx => h x (by simp [hx])

lemma noExportAfterImport_append (t : MType) :
    ∀ (A B : List Event), (∀ e ∈ A, isImportOf t e = false) →
    noExportAfterImport t false (A ++ B) = noExportAfterImport t false B := by
  intro A
  induction A with
  | nil =>
    intro B h
    rfl
  | cons e rest ih =>
    intro B h
    have he := h e (by simp)
    simp only [List.cons_append, noExportAfterImport, he, Bool.false_and,
      Bool.or_false, if_neg (by simp : ¬ False)]
    exact ih B fun x hx => h x (by simp [hx])

lemma sep_events_ordered (t : MType) (A B : List Event)
    (hA : ∀ e ∈ A, isImportOf t e = false)
    (hB : ∀ e ∈ B, isExportOf t e = false) :
    noExportAfterImport t false (A ++ B) = true := by
  rw [noExportAfterImport_append t A B hA]
  exact noExportAfterImport_of_no_export t B false hB

def cEnv4 : Env :=
  ⟨fun _ => true, fun _ => true, fun _ => true, fun _ => true, fun _ => true,
   fun _ => true, fun _ => some ("03/14/2024".data), fun _ _ => some 5⟩

def cAcct4a : Account :=
  ⟨"a@old.example.com".data, "a@new.example.com".data, "store1".data,
   false, false, false, false, false, false⟩

def cAcct4b : Account :=
  ⟨"b@old.example.com".data, "b@new.example.com".data, "store1".data,
   false, false, false, false, false, false⟩

/-- C4 counterexample: the LDIFF phase is NOT two-pass — for each account
the export and the import run back to back, so over a two-account batch the
first account's LDIFF import precedes the second account's LDIFF export. -/
theorem ldiff_interleaves_cex :
    (process_ldiff cEnv4 (some ("store2".data)) [] [cAcct4a, cAcct4b]).events =
      [Event.exportCall MType.ldiff cAcct4a.mail,
       Event.importCall MType.ldiff cAcct4a.mail,
       Event.exportCall MType.ldiff cAcct4b.mail,
       Event.importCall MType.ldiff cAcct4b.mail] ∧
    noExportAfterImport MType.ldiff false
      (process_ldiff cEnv4 (some ("store2".data)) [] [cAcct4a, cAcct4b]).events
      = false := by
  constructor
  · decide
  · decide

/-- C4 (amended). The full and incremental phases are two-pass: every
export call of the type over the worker's whole batch happens before
any import call of that type.  The LDIFF phase interleaves: each account's
export and import run consecutively, so an earlier account's import
precedes a later account's export (see the counterexample). -/
theorem two_pass_order_amended (env : Env) (ledger : List Str)
    (accounts : List Account) (wdate : Option Str) :
    noExportAfterImport MType.full false
      (process_full_migration env ledger accounts).events = true ∧
    noExportAfterImport MType.incr false
      (process_incremental_migration env wdate ledger accounts).events = true := by
  constructor
  · have h : (process_full_migration env ledger accounts).events =
        (fullExportPass env ledger accounts).events ++
          (fullImportPass env (fullExportPass env ledger accounts).ledger
            (fullExportPass env ledger accounts).accounts).events := rfl
    rw [h]
    exact sep_events_ordered MType.full _ _
      (fullExportPass_no_import env accounts ledger)
      (fullImportPass_no_export env _ _)
  · have h : (process_incremental_migration env wdate ledger accounts).events =
        (incrExportPass env wdate ledger accounts).events ++
          (incrImportPass env wdate (incrExportPass env wdate ledger accounts).ledger
            (incrExportPass env wdate ledger accounts).accounts).events := rfl
    rw [h]
    exact sep_events_ordered MType.incr _ _
      (incrExportPass_no_import env wdate accounts ledger)
      (incrImportPass_no_export env wdate _ _)

/-! ### C1: full-migration idempotency -/

lemma fullExportStep_ledger (env : Env) (ledger : List Str) (a : Account) :
    ∃ ex, (fullExportStep env ledger a).1 = ledger ++ ex := by
  by_cases hc : check_session ledger a.mail feTag = true
  · exact ⟨[], by simp [fullExportStep, hc]⟩
  · by_cases ho : env.fullExportOk a.mail = true
    · rcases hl : env.lastFullDate a.mail with _ | dd
      · exact ⟨[], by simp [fullExportStep, export_full_backup, hc, ho, hl]⟩
      · exact ⟨[sessionLine a.mail (feTag ++ ';' :: dd)],
          by simp [fullExportStep, export_full_backup, record_session, hc, ho, hl]⟩
    · exact ⟨[], by simp [fullExportStep, export_full_backup, hc, ho]⟩

lemma fullImportStep_ledger (env : Env) (ledger : List Str) (a : Account) :
    ∃ ex, (fullImportStep env ledger a).1 = ledger ++ ex := by
  by_cases hc : check_session ledger a.mail fiTag = true
  · exact ⟨[], by simp [fullImportStep, hc]⟩
  · by_cases he : a.is_exported = true
    · by_cases ho : env.fullImportOk a.mail = true
      · rcases hl : env.lastFullDate a.mail with _ | dd
        · exact ⟨[], by simp [fullImportStep, import_full_backup, hc, he, ho, hl]⟩
        · exact ⟨[sessionLine a.mail (fiTag ++ ';' :: dd)],
            by simp [fullImportStep, import_full_backup, record_session, hc, he, ho, hl]⟩
      · exact ⟨[], by simp [fullImportStep, import_full_backup, hc, he, ho]⟩
    · simp only [Bool.not_eq_true] at he
      exact ⟨[], by simp [fullImportStep, hc, he]⟩

lemma fullExportStep_of_check (env : Env) (ledger : List Str) (a : Account)
    (hc : check_session ledger a.mail feTag = true) :
    fullExportStep env ledger a = (ledger, { a with is_exported := true }, []) := by
  simp [fullExportStep, hc]

lemma fullImportStep_of_check (env : Env) (ledger : List Str) (a : Account)
    (hc : check_session ledger a.mail fiTag = true) :
    fullImportStep env ledger a = (ledger, { a with is_migrated := true }, []) := by
  simp [fullImportStep, hc]

lemma fullExportStep_mail (env : Env) (ledger : List Str) (a : Account) :
    (fullExportStep env ledger a).2.1.mail = a.mail := by
  by_cases hc : check_session ledger a.mail feTag = true
  · simp [fullExportStep, hc]
  · by_cases ho : env.fullExportOk a.mail = true
    · rcases hl : env.lastFullDate a.mail with _ | dd
      · simp [fullExportStep, export_full_backup, hc, ho, hl]
      · simp [fullExportStep, export_full_backup, hc, ho, hl]
    · simp [fullExportStep, export_full_backup, hc, ho]

lemma fullImportStep_mail (env : Env) (ledger : List Str) (a : Account) :
    (fullImportStep env ledger a).2.1.mail = a.mail := by
  by_cases hc : check_session ledger a.mail fiTag = true
  · simp [fullImportStep, hc]
  · by_cases he : a.is_exported = true
    · by_cases ho : env.fullImportOk a.mail = true
      · rcases hl : env.lastFullDate a.mail with _ | dd
        · simp [fullImportStep, import_full_backup, hc, he, ho, hl]
        · simp [fullImportStep, import_full_backup, hc, he, ho, hl]
      · simp [fullImportStep, import_full_backup, hc, he, ho]
    · simp only [Bool.not_eq_true] at he
      simp [fullImportStep, hc, he]

/-- With a `FULL-EXPORT` ledger entry for address `m` present at the start,
the export pass only extends the ledger, performs no full-export call for
`m`, and marks every account with address `m` exported. -/
lemma fullExportPass_skips (env : Env) (m : Str) :
    ∀ (accounts : List Account) (ledger : List Str),
    check_session ledger m feTag = true →
    (∃ ex, (fullExportPass env ledger accounts).ledger = ledger ++ ex) ∧
    (Event.exportCall MType.full m ∉ (fullExportPass env ledger accounts).events) ∧
    (∀ a2 ∈ (fullExportPass env ledger accounts).accounts, a2.mail = m →
      a2.is_exported = true) := by
  intro accounts
  induction accounts with
  | nil =>
    intro ledger h
    refine ⟨⟨[], by simp [fullExportPass]⟩, by simp [fullExportPass], ?_⟩
    intro a2 ha2
    simp [fullExportPass] at ha2
  | cons a rest ih =>
    intro ledger h
    obtain ⟨ex1, hex1⟩ := fullExportStep_ledger env ledger a
    have h1 : check_session (fullExportStep env ledger a).1 m feTag = true := by
      rw [hex1]
      exact check_session_mono ex1 h
    obtain ⟨⟨ex2, hex2⟩, hev, hacc⟩ := ih (fullExportStep env ledger a).1 h1
    refine ⟨⟨ex1 ++ ex2, ?_⟩, ?_, ?_⟩
    · show (fullExportPass env (fullExportStep env ledger a).1 rest).ledger = _
      rw [hex2, hex1, List.append_assoc]
    · intro hin
      simp only [fullExportPass, List.mem_append] at hin
      rcases hin with hin | hin
      · by_cases hm : a.mail = m
        · rw [fullExportStep_of_check env ledger a (by rw [hm]; exact h)] at hin
          simp at hin
        · rcases fullExportStep_events env ledger a with h0 | h0 <;> rw [h0] at hin
          · simp at hin
          · simp at hin
            exact hm hin.symm
      · exact hev hin
    · intro a2 ha2 hm2
      simp only [fullExportPass, List.mem_cons] at ha2
      rcases ha2 with rfl | ha2
      · by_cases hm : a.mail = m
        · rw [fullExportStep_of_check env ledger a (by rw [hm]; exact h)]
        · exact absurd ((fullExportStep_mail env ledger a).symm.trans hm2) hm
      · exact hacc a2 ha2 hm2

/-- With a `FULL-IMPORT` ledger entry for address `m` present at the start
of the import pass, and every `m`-account already marked exported,
the import pass performs no full-import call for `m` and leaves every
`m`-account exported and migrated. -/
lemma fullImportPass_skips (env : Env) (m : Str) :
    ∀ (accounts : List Account) (ledger : List Str),
    check_session ledger m fiTag = true →
    (∀ a ∈ accounts, a.mail = m → a.is_exported = true) →
    (Event.importCall MType.full m ∉ (fullImportPass env ledger accounts).events) ∧
    (∀ a2 ∈ (fullImportPass env ledger accounts).accounts, a2.mail = m →
      a2.is_exported = true ∧ a2.is_migrated = true) := by
  intro accounts
  induction accounts with
  | nil =>
    intro ledger h hExp
    refine ⟨by simp [fullImportPass], ?_⟩
    intro a2 ha2
    simp [fullImportPass] at ha2
  | cons a rest ih =>
    intro ledger h hExp
    obtain ⟨ex1, hex1⟩ := fullImportStep_ledger env ledger a
    have h1 : check_session (fullImportStep env ledger a).1 m fiTag = true := by
      rw [hex1]
      exact check_session_mono ex1 h
    obtain ⟨hev, hacc⟩ := ih (fullImportStep env ledger a).1 h1
      fun b hb => hExp b (by simp [hb])
    constructor
    · intro hin
      simp only [fullImportPass, List.mem_append] at hin
      rcases hin with hin | hin
      · by_cases hm : a.mail = m
        · rw [fullImportStep_of_check env ledger a (by rw [hm]; exact h)] at hin
          simp at hin
        · rcases fullImportStep_events env ledger a with h0 | h0 <;> rw [h0] at hin
          · simp at hin
          · simp at hin
            exact hm hin.symm
      · exact hev hin
    · intro a2 ha2 hm2
      simp only [fullImportPass, List.mem_cons] at ha2
      rcases ha2 with rfl | ha2
      · by_cases hm : a.mail = m
        · rw [fullImportStep_of_check env ledger a (by rw [hm]; exact h)]
          refine ⟨?_, by simp⟩
          simpa using hExp a (by simp) hm
        · exact absurd ((fullImportStep_mail env ledger a).symm.trans hm2) hm
      · exact hacc a2 ha2 hm2

/-- C1. Full-migration idempotency: for an account address whose ledger
already holds both a `FULL-EXPORT` and a `FULL-IMPORT` entry (a fully
succeeded prior run), running the full-migration phase performs zero
external export calls and zero external import calls for that address, and
marks every account with that address exported and migrated from the ledger
checks alone. -/
theorem full_migration_idempotent (env : Env) (ledger : List Str)
    (accounts : List Account) (m : Str)
    (hE : check_session ledger m feTag = true)
    (hI : check_session ledger m fiTag = true) :
    Event.exportCall MType.full m ∉
      (process_full_migration env ledger accounts).events ∧
    Event.importCall MType.full m ∉
      (process_full_migration env ledger accounts).events ∧
    ∀ a ∈ (process_full_migration env ledger accounts).accounts, a.mail = m →
      a.is_exported = true ∧ a.is_migrated = true := by
  obtain ⟨⟨ex, hex⟩, hev1, hacc1⟩ := fullExportPass_skips env m accounts ledger hE
  have hI2 : check_session (fullExportPass env ledger accounts).ledger m fiTag
      = true := by
    rw [hex]
    exact check_session_mono ex hI
  obtain ⟨hev2, hacc2⟩ := fullImportPass_skips env m
    (fullExportPass env ledger accounts).accounts
    (fullExportPass env ledger accounts).ledger hI2 hacc1
  have hevents : (process_full_migration env ledger accounts).events =
      (fullExportPass env ledger accounts).events ++
        (fullImportPass env (fullExportPass env ledger accounts).ledger
          (fullExportPass env ledger accounts).accounts).events := rfl
  have haccounts : (process_full_migration env ledger accounts).accounts =
      (fullImportPass env (fullExportPass env ledger accounts).ledger
        (fullExportPass env ledger accounts).accounts).accounts := rfl
  refine ⟨?_, ?_, ?_⟩
  · rw [hevents]
    intro hin
    rcases List.mem_append.1 hin with hin | hin
    · exact hev1 hin
    · have hx := fullImportPass_no_export env _ _ _ hin
      simp [isExportOf] at hx
  · rw [hevents]
    intro hin
    rcases List.mem_append.1 hin with hin | hin
    · have hx := fullExportPass_no_import env _ _ _ hin
      simp [isImportOf] at hx
    · exact hev2 hin
  · rw [haccounts]
    exact hacc2

def wEnv1 : Env :=
  ⟨fun _ => true, fun _ => true, fun _ => true, fun _ => true, fun _ => true,
   fun _ => true, fun _ => some ("03/14/2024".data), fun _ _ => some 5⟩

def wAcct1 : Account :=
  ⟨"done@old.example.com".data, "done@new.example.com".data, "store1".data,
   false, false, false, false, false, false⟩

def wLedger1 : List Str :=
  record_session (record_session [] ("done@old.example.com".data)
    ("FULL-EXPORT;03/01/2024".data)) ("done@old.example.com".data)
    ("FULL-IMPORT;03/01/2024".data)

theorem full_migration_idempotent_witness :
    (check_session wLedger1 ("done@old.example.com".data) feTag = true ∧
     check_session wLedger1 ("done@old.example.com".data) fiTag = true) ∧
    (Event.exportCall MType.full ("done@old.example.com".data) ∉
       (process_full_migration wEnv1 wLedger1 [wAcct1]).events ∧
     Event.importCall MType.full ("done@old.example.com".data) ∉
       (process_full_migration wEnv1 wLedger1 [wAcct1]).events ∧
     ∀ a ∈ (process_full_migration wEnv1 wLedger1 [wAcct1]).accounts,
       a.mail = ("done@old.example.com".data) →
       a.is_exported = true ∧ a.is_migrated = true) :=
  ⟨⟨by decide, by decide⟩,
   full_migration_idempotent wEnv1 wLedger1 [wAcct1]
     ("done@old.example.com".data) (by decide) (by decide)⟩

end ZcsMigration
